import Mathlib

set_option maxRecDepth 8000

/-!
Shallow embedding of the ccanvas-scroll engine (src/main.rs): styled-text
chunks, the three wrapping algorithms (truncate-only, hard wrap, word wrap),
the bounded scroll buffer, and one round of the request-processing loop.
Machine integers (u32/usize) are modelled as Nat; text is modelled as its
sequence of code units (List Char).
-/

/-- A colour token: the source treats `Colour` as an opaque equatable value. -/
abbrev Colour := Nat

/-- `Chunk` from main.rs: a colour marker (zero width) or a text fragment. -/
inductive Chunk where
  | colour (value : Colour)
  | text (value : List Char)
deriving Repr, DecidableEq, Inhabited

/-- `Chunk::len`: 0 for a colour chunk, the text's length for a text chunk. -/
def Chunk.len : Chunk → Nat
  | .colour _ => 0
  | .text value => value.length

/-- `Chunk::truncate`: cut a text chunk to at most `length` code units; a
colour chunk is returned unchanged. -/
def Chunk.truncate : Chunk → Nat → Chunk
  | .colour v, _ => .colour v
  | .text value, length => .text (value.take length)

/-- `Chunk::skip`: remove the first `length` code units of a text chunk; a
colour chunk is returned unchanged. -/
def Chunk.skip : Chunk → Nat → Chunk
  | .colour v, _ => .colour v
  | .text value, length => .text (value.drop length)

/-- Whether a chunk is a colour marker (the source's
`matches!(chunk, Chunk::Colour { .. })` test). -/
def Chunk.isColour : Chunk → Bool
  | .colour _ => true
  | .text _ => false

/-- `Entry`: an ordered sequence of chunks forming one logical record. -/
structure Entry where
  chunks : List Chunk
deriving Repr, DecidableEq, Inhabited

/-- Loop body of `Entry::truncate`: walk the chunks accumulating consumed
width; on overflow emit a width-limited truncation and stop. -/
def truncateGo (length : Nat) : List Chunk → Nat → List Chunk → List Chunk
  | [], _, new => new
  | c :: rest, running_length, new =>
    if running_length + c.len > length then new ++ [c.truncate (length - running_length)]
    else truncateGo length rest (running_length + c.len) (new ++ [c])

/-- `Entry::truncate`. -/
def Entry.truncate (e : Entry) (length : Nat) : Entry :=
  ⟨truncateGo length e.chunks 0 []⟩

/-- The chunks a freshly started wrap line begins with: the re-emitted
previous colour when one has been tracked (`if let Some(previous_colour)`). -/
def startLine : Option Chunk → List Chunk
  | some pc => [pc]
  | none => []

/-- The while loop of `Entry::plain_wrap`, fuelled.  The state is the
remaining chunk list (the head is `chunks[cursor]`, possibly already
replaced by a skipped remainder), the current running length, the tracked
previous colour, the line under construction and the completed lines.
Note the source resets `running_length` to 0 BEFORE computing
`chunk.skip(length - running_length)`, which the lets below reproduce. -/
def plainWrapGo (length : Nat) :
    Nat → List Chunk → Nat → Option Chunk → List Chunk → List Entry → List Entry
  | _, [], _, _, cur, acc => acc ++ [⟨cur⟩]
  | 0, _ :: _, _, _, cur, acc => acc ++ [⟨cur⟩]
  | fuel + 1, c :: rest, running_length, previous_colour, cur, acc =>
    let previous_colour := if c.isColour then some c else previous_colour
    if running_length + c.len > length then
      let cur := cur ++ [c.truncate (length - running_length)]
      let acc := acc ++ [Entry.mk cur]
      let running_length := 0
      let line_start := startLine previous_colour
      let new_head := c.skip (length - running_length)
      plainWrapGo length fuel (new_head :: rest) running_length previous_colour line_start acc
    else
      plainWrapGo length fuel rest (running_length + c.len) previous_colour (cur ++ [c]) acc

/-- Fuel bound for the wrapping loops: generously more than the number of
iterations the loop can make (at most two per retained code unit plus one
per chunk when the width is positive). -/
def wrapFuel (chunks : List Chunk) : Nat :=
  2 * (chunks.map (fun c => c.len + 1)).sum + 2

/-- `Entry::plain_wrap` (hard wrap). -/
def Entry.plain_wrap (e : Entry) (length : Nat) : List Entry :=
  plainWrapGo length (wrapFuel e.chunks) e.chunks 0 none [] []

/-- Rust `str::split(' ')` on code units: split at every single space,
keeping empty fragments, with one (possibly empty) fragment when there is
no space at all. -/
def splitSpaces : List Char → List (List Char)
  | [] => [[]]
  | c :: rest =>
    if c = ' ' then [] :: splitSpaces rest
    else
      match splitSpaces rest with
      | w :: ws => (c :: w) :: ws
      | [] => [[c]]

/-- One chunk's contribution in `Entry::split_words`: a text chunk is split
on spaces into word chunks, each but the last regaining a trailing space;
other chunks pass through. -/
def splitWordsChunk : Chunk → List Chunk
  | .colour v => [.colour v]
  | .text value =>
    let chunks := splitSpaces value
    if chunks.isEmpty then []
    else
      (chunks.take (chunks.length - 1)).map (fun w => Chunk.text (w ++ [' ']))
        ++ [Chunk.text (chunks.getLastD [])]

/-- `Entry::split_words`. -/
def Entry.split_words (e : Entry) : Entry :=
  ⟨(e.chunks.map splitWordsChunk).flatten⟩

/-- The while loop of `Entry::word_wrap`, fuelled.  A mid-chunk split
happens only when the single chunk's own length exceeds the width; there
the source computes `chunk.skip(length - running_length)` BEFORE resetting
`running_length`, unlike `plain_wrap`. -/
def wordWrapGo (length : Nat) :
    Nat → List Chunk → Nat → Option Chunk → List Chunk → List Entry → List Entry
  | _, [], _, _, cur, acc => acc ++ [⟨cur⟩]
  | 0, _ :: _, _, _, cur, acc => acc ++ [⟨cur⟩]
  | fuel + 1, c :: rest, running_length, previous_colour, cur, acc =>
    let previous_colour := if c.isColour then some c else previous_colour
    if running_length + c.len > length then
      let split :=
        if c.len > length then
          (cur ++ [c.truncate (length - running_length)],
            c.skip (length - running_length) :: rest)
        else (cur, c :: rest)
      wordWrapGo length fuel split.2 0 previous_colour (startLine previous_colour)
        (acc ++ [Entry.mk split.1])
    else
      wordWrapGo length fuel rest (running_length + c.len) previous_colour (cur ++ [c]) acc

/-- `Entry::word_wrap`: split into word chunks, then wrap. -/
def Entry.word_wrap (e : Entry) (length : Nat) : List Entry :=
  wordWrapGo length (wrapFuel e.split_words.chunks) e.split_words.chunks 0 none [] []

/-- Largest u32 value (2 ^ 32 - 1): `u32::saturating_add_signed` saturates
here above. -/
def U32_MAX : Nat := 4294967295

/-- `u32::saturating_add_signed`: clamp the signed sum to [0, u32::MAX]. -/
def saturating_add_signed (c : Nat) (o : Int) : Nat :=
  min (Int.toNat (Int.ofNat c + o)) U32_MAX

/-- `ScrollPosition` from main.rs. -/
inductive ScrollPosition where
  | absolute (index : Nat)
  | relative (index : Int)
deriving Repr, DecidableEq

/-- `ScrollPosition::eval`: resolve the position against the cursor and
clamp to the cursor. -/
def ScrollPosition.eval (p : ScrollPosition) (cursor : Nat) : Nat :=
  (match p with
    | .absolute index => index
    | .relative index => saturating_add_signed cursor index).min cursor

/-- The configuration the source reads once at startup
(LINE_WRAP, WORD_WRAP, MAX_ENTRIES). -/
structure Config where
  line_wrap : Bool
  word_wrap : Bool
  max_entries : Nat
deriving Repr, DecidableEq

/-- `State` from main.rs: the bounded scroll buffer and its layout cache. -/
structure State where
  skip : Nat
  entries : List (Nat × Entry)
  formatted_cache : List Entry
  formatted_cache_width : Nat
deriving Repr, Inhabited, DecidableEq

/-- The empty buffer created at startup (`State::default()`). -/
def State.initial : State := ⟨0, [], [], 0⟩

/-- `gen_uid`: increment the global counter and return the new value.  The
counter is threaded explicitly; the new counter equals the returned uid. -/
def gen_uid (counter : Nat) : Nat := counter + 1

/-- `Vec::insert` at an index that is at most the length. -/
def insertAt (n : Nat) (a : α) (l : List α) : List α :=
  l.take n ++ a :: l.drop n

/-- `State::format`: recompute the layout cache at the given width (no-op
at width 0), in the mode selected by the configuration flags. -/
def State.format (cfg : Config) (s : State) (width : Nat) : State :=
  if width = 0 then s
  else if !cfg.line_wrap then
    { s with formatted_cache_width := width,
             formatted_cache := s.entries.map (fun p => p.2.truncate width) }
  else if !cfg.word_wrap then
    { s with formatted_cache_width := width,
             formatted_cache := (s.entries.map (fun p => p.2.plain_wrap width)).flatten }
  else
    { s with formatted_cache_width := width,
             formatted_cache := (s.entries.map (fun p => p.2.word_wrap width)).flatten }

/-- `State::add`: resolve the position, consume a skip slot when the target
is below the retained window, otherwise insert a fresh record and evict the
oldest when the bound is exceeded.  Returns the new state, the new uid
counter, and the result the caller sees. -/
def State.add (cfg : Config) (s : State) (uidc : Nat) (entry : Entry)
    (position : ScrollPosition) : State × Nat × Option Nat :=
  let index := min (position.eval (s.entries.length + s.skip))
    (s.skip + s.entries.length + 1)
  if index < s.skip then
    ({ s with skip := s.skip + 1 }, uidc, none)
  else
    let local_index := index - s.skip
    let uid := gen_uid uidc
    let inserted :=
      if s.entries.length < local_index then s.entries ++ [(uid, entry)]
      else insertAt local_index (uid, entry) s.entries
    if inserted.length > cfg.max_entries then
      ({ s with entries := inserted.tail, skip := s.skip + 1 }, uid, some uid)
    else
      ({ s with entries := inserted }, uid, some uid)

/-- Linear search of `State::remove`: drop the first record with the uid,
or report that none exists. -/
def removeEntries (id : Nat) : List (Nat × Entry) → Option (List (Nat × Entry))
  | [] => none
  | p :: rest =>
    if p.1 = id then some rest
    else
      match removeEntries id rest with
      | some rest2 => some (p :: rest2)
      | none => none

/-- `State::remove`. -/
def State.remove (s : State) (id : Nat) : State × Bool :=
  match removeEntries id s.entries with
  | some entries => ({ s with entries := entries }, true)
  | none => (s, false)

/-- Linear search of `State::update`: replace the entry of the first record
with the uid, keeping its uid, or report that none exists. -/
def updateEntries (id : Nat) (new : Entry) : List (Nat × Entry) → Option (List (Nat × Entry))
  | [] => none
  | p :: rest =>
    if p.1 = id then some ((p.1, new) :: rest)
    else
      match updateEntries id new rest with
      | some rest2 => some (p :: rest2)
      | none => none

/-- `State::update`. -/
def State.update (s : State) (id : Nat) (new : Entry) : State × Bool :=
  match updateEntries id new s.entries with
  | some entries => ({ s with entries := entries }, true)
  | none => (s, false)

/-- `ScrollRequest`: a request variant paired with its correlation id. -/
inductive ScrollRequest where
  | addEntry (id : Nat) (position : ScrollPosition) (entry : Entry)
  | removeEntry (id : Nat) (uid : Nat)
  | updateEntry (id : Nat) (uid : Nat) (new : Entry)
  | multiple (id : Nat) (requests : List ScrollRequest)

/-- `ScrollResponseVariant` from main.rs (nested responses carry no ids). -/
inductive ScrollResponseVariant where
  | created (uid : Nat)
  | updated
  | removed
  | notFound
  | recieved
  | multiple (responses : List ScrollResponseVariant)

/-- `ScrollResponse`: a response variant paired with its correlation id. -/
structure ScrollResponse where
  content : ScrollResponseVariant
  id : Nat

mutual

/-- Number of request nodes in one request, used as loop fuel. -/
def reqFuel : ScrollRequest → Nat
  | .addEntry _ _ _ => 1
  | .removeEntry _ _ => 1
  | .updateEntry _ _ _ => 1
  | .multiple _ requests => 1 + reqsFuel requests

/-- Number of request nodes in a request list. -/
def reqsFuel : List ScrollRequest → Nat
  | [] => 0
  | r :: rest => reqFuel r + reqsFuel rest

end

/-- The mutable round state of the main loop's message branch: the buffer,
the uid counter, the accumulated responses and the `updated` flag. -/
structure RoundState where
  state : State
  uidc : Nat
  res : List ScrollResponse
  updated : Bool

/-- The `while let Some(req) = reqests.pop_front()` drain loop, fuelled:
apply each request to the buffer, accumulate one response per leaf request,
and splice a Multiple's children onto the back of the queue right after
acknowledging it with Recieved. -/
def drainGo (cfg : Config) : Nat → List ScrollRequest → RoundState → RoundState
  | _, [], rs => rs
  | 0, _ :: _, rs => rs
  | fuel + 1, req :: queue, rs =>
    match req with
    | .addEntry id position entry =>
      match State.add cfg rs.state rs.uidc entry position with
      | (s, uidc, some uid) =>
        drainGo cfg fuel queue
          ⟨s, uidc, rs.res ++ [⟨.created uid, id⟩], true⟩
      | (s, uidc, none) =>
        drainGo cfg fuel queue
          ⟨s, uidc, rs.res ++ [⟨.notFound, id⟩], rs.updated⟩
    | .removeEntry id uid =>
      match State.remove rs.state uid with
      | (s, true) =>
        drainGo cfg fuel queue ⟨s, rs.uidc, rs.res ++ [⟨.removed, id⟩], true⟩
      | (s, false) =>
        drainGo cfg fuel queue ⟨s, rs.uidc, rs.res ++ [⟨.notFound, id⟩], rs.updated⟩
    | .updateEntry id uid new =>
      match State.update rs.state uid new with
      | (s, true) =>
        drainGo cfg fuel queue ⟨s, rs.uidc, rs.res ++ [⟨.updated, id⟩], true⟩
      | (s, false) =>
        drainGo cfg fuel queue ⟨s, rs.uidc, rs.res ++ [⟨.notFound, id⟩], rs.updated⟩
    | .multiple id requests =>
      drainGo cfg fuel (queue ++ requests)
        ⟨rs.state, rs.uidc, rs.res ++ [⟨.recieved, id⟩], rs.updated⟩

/-- Drain the round seeded with the single inbound request. -/
def processRound (cfg : Config) (s : State) (uidc : Nat) (req : ScrollRequest) : RoundState :=
  drainGo cfg (reqFuel req) [req] ⟨s, uidc, [], false⟩

/-- The outward side effects of one round: the single format-and-re-render,
and the sending of one response message. -/
inductive Effect where
  | formatRender
  | send (response : ScrollResponse)

/-- Whether an effect is the format-and-re-render trigger. -/
def Effect.isFormatRender : Effect → Bool
  | .formatRender => true
  | .send _ => false

/-- The `match res.len()` response shaping at the end of the message
branch: one response is sent directly; several are wrapped in a single
Multiple envelope correlated to the first response's id; none sends
nothing. -/
def shapeResponses : List ScrollResponse → List Effect
  | [r] => [.send r]
  | r :: rest => [.send ⟨.multiple ((r :: rest).map ScrollResponse.content), r.id⟩]
  | [] => []

/-- The result of one full message round: the state, the uid counter and
the trace of outward effects in spawn order. -/
structure RoundOutput where
  state : State
  uidc : Nat
  effects : List Effect

/-- One full round of the main loop's message branch: drain the queue,
then, if anything mutated, format once and trigger one re-render, then
shape and send the response. -/
def handleMessage (cfg : Config) (width : Nat) (s : State) (uidc : Nat)
    (req : ScrollRequest) : RoundOutput :=
  let rs := processRound cfg s uidc req
  if rs.updated then
    ⟨State.format cfg rs.state width, rs.uidc, Effect.formatRender :: shapeResponses rs.res⟩
  else
    ⟨rs.state, rs.uidc, shapeResponses rs.res⟩

/-- A direct buffer operation, for stating invariants over arbitrary
operation sequences. -/
inductive Op where
  | add (entry : Entry) (position : ScrollPosition)
  | remove (uid : Nat)
  | update (uid : Nat) (new : Entry)

/-- Apply one operation to the buffer, threading the uid counter. -/
def applyOp (cfg : Config) : Op → State × Nat → State × Nat
  | .add entry position, (s, uidc) =>
    match State.add cfg s uidc entry position with
    | (s2, uidc2, _) => (s2, uidc2)
  | .remove uid, (s, uidc) => ((s.remove uid).1, uidc)
  | .update uid new, (s, uidc) => ((s.update uid new).1, uidc)

/-- Run a sequence of operations from a given state and counter. -/
def runOps (cfg : Config) (ops : List Op) (init : State × Nat) : State × Nat :=
  ops.foldl (fun acc op => applyOp cfg op acc) init

/-- The uids returned by the successful `add` calls of an operation
sequence, in call order. -/
def runOpsUids (cfg : Config) : List Op → State → Nat → List Nat
  | [], _, _ => []
  | .add entry position :: rest, s, uidc =>
    match State.add cfg s uidc entry position with
    | (s2, uidc2, some uid) => uid :: runOpsUids cfg rest s2 uidc2
    | (s2, uidc2, none) => runOpsUids cfg rest s2 uidc2
  | .remove uid :: rest, s, uidc => runOpsUids cfg rest (s.remove uid).1 uidc
  | .update uid new :: rest, s, uidc => runOpsUids cfg rest (s.update uid new).1 uidc

/-- The update of the wrap loops' `previous_colour` variable on visiting a
chunk: a colour chunk replaces it, anything else keeps it. -/
def updColour (acc : Option Chunk) (c : Chunk) : Option Chunk :=
  if c.isColour then some c else acc

/-- The last colour chunk of a chunk sequence, on top of an initial one. -/
def lastColourFrom (init : Option Chunk) (l : List Chunk) : Option Chunk :=
  l.foldl updColour init

/-- All chunks of a sequence of display lines, in order. -/
def flattenLines (lines : List Entry) : List Chunk :=
  (lines.map Entry.chunks).flatten

/-- Colour persistence across wrap boundaries: every line after the first
begins with the most recent colour chunk emitted before it (the chunks
emitted before line `j` are exactly those of lines `0..j-1`, and their last
colour chunk is the colour most recently encountered in the entry before
the break that started line `j`, because the loops re-emit only the tracked
last-seen colour). -/
def ColourPersists (lines : List Entry) : Prop :=
  ∀ j line, 0 < j → lines.get? j = some line →
    ∀ c, lastColourFrom none (flattenLines (lines.take j)) = some c →
      line.chunks.head? = some c

/-- Modelled from the spec: the word-wrap loop as the spec's design note
describes it, recomputing the characters to skip on an overflowing chunk's
remainder with the POST-reset running length (zero right after starting the
new line), i.e. `chunk.skip(length - 0)`.  This differs from the source's
`word_wrap`, which computes the skip before resetting the running length;
it exists only to compare the claimed behaviour with the code's. -/
def wordWrapPostResetGo (length : Nat) :
    Nat → List Chunk → Nat → Option Chunk → List Chunk → List Entry → List Entry
  | _, [], _, _, cur, acc => acc ++ [⟨cur⟩]
  | 0, _ :: _, _, _, cur, acc => acc ++ [⟨cur⟩]
  | fuel + 1, c :: rest, running_length, previous_colour, cur, acc =>
    let previous_colour := if c.isColour then some c else previous_colour
    if running_length + c.len > length then
      let split :=
        if c.len > length then
          (cur ++ [c.truncate (length - running_length)], c.skip (length - 0) :: rest)
        else (cur, c :: rest)
      wordWrapPostResetGo length fuel split.2 0 previous_colour (startLine previous_colour)
        (acc ++ [Entry.mk split.1])
    else
      wordWrapPostResetGo length fuel rest (running_length + c.len) previous_colour
        (cur ++ [c]) acc

/-- Modelled from the spec: `word_wrap` with the post-reset skip amount the
spec's design note claims for it. -/
def Entry.word_wrap_postreset (e : Entry) (length : Nat) : List Entry :=
  wordWrapPostResetGo length (wrapFuel e.split_words.chunks) e.split_words.chunks 0 none [] []

/-- Whether a response variant reports a successful mutation. -/
def isSuccessResponse : ScrollResponseVariant → Bool
  | .created _ => true
  | .updated => true
  | .removed => true
  | _ => false

/-! Helper lemmas shared by the claim theorems. -/

lemma eval_le_cursor (p : ScrollPosition) (cursor : Nat) : p.eval cursor ≤ cursor := by
  cases p <;> simp [ScrollPosition.eval]

lemma length_insertAt (n : Nat) (a : α) (l : List α) :
    (insertAt n a l).length = l.length + 1 := by
  simp [insertAt]
  omega

lemma removeEntries_length {id : Nat} :
    ∀ {l l' : List (Nat × Entry)}, removeEntries id l = some l' → l'.length + 1 = l.length := by
  intro l
  induction l with
  | nil => intro l' h; simp [removeEntries] at h
  | cons p rest ih =>
    intro l' h
    rw [removeEntries] at h
    by_cases hp : p.1 = id
    · rw [if_pos hp] at h
      cases h
      rfl
    · rw [if_neg hp] at h
      cases hrec : removeEntries id rest with
      | none => rw [hrec] at h; cases h
      | some rest2 =>
        rw [hrec] at h
        cases h
        have := ih hrec
        simp
        omega

lemma updateEntries_length {id : Nat} {new : Entry} :
    ∀ {l l' : List (Nat × Entry)}, updateEntries id new l = some l' → l'.length = l.length := by
  intro l
  induction l with
  | nil => intro l' h; simp [updateEntries] at h
  | cons p rest ih =>
    intro l' h
    rw [updateEntries] at h
    by_cases hp : p.1 = id
    · rw [if_pos hp] at h
      cases h
      rfl
    · rw [if_neg hp] at h
      cases hrec : updateEntries id new rest with
      | none => rw [hrec] at h; cases h
      | some rest2 =>
        rw [hrec] at h
        cases h
        have := ih hrec
        simp [this]

lemma State.add_entries_length_le (cfg : Config) (s : State) (uidc : Nat) (e : Entry)
    (p : ScrollPosition) (h : s.entries.length ≤ cfg.max_entries) :
    (State.add cfg s uidc e p).1.entries.length ≤ cfg.max_entries := by
  simp only [State.add]
  split_ifs
  all_goals dsimp only
  all_goals try simp only [List.length_tail, length_insertAt, List.length_append,
    List.length_cons, List.length_nil] at *
  all_goals omega

lemma State.remove_entries_length_le (s : State) (uid : Nat) :
    (s.remove uid).1.entries.length ≤ s.entries.length := by
  rw [State.remove]
  cases h : removeEntries uid s.entries with
  | none => simp
  | some l => have := removeEntries_length h; simp; omega

lemma State.update_entries_length (s : State) (uid : Nat) (new : Entry) :
    (s.update uid new).1.entries.length = s.entries.length := by
  rw [State.update]
  cases h : updateEntries uid new s.entries with
  | none => simp
  | some l => have := updateEntries_length h; simpa

lemma runOps_entries_bound (cfg : Config) :
    ∀ (ops : List Op) (s : State) (uidc : Nat), s.entries.length ≤ cfg.max_entries →
      (runOps cfg ops (s, uidc)).1.entries.length ≤ cfg.max_entries := by
  intro ops
  induction ops with
  | nil => intro s uidc h; simpa [runOps]
  | cons op rest ih =>
    intro s uidc h
    have hstep : runOps cfg (op :: rest) (s, uidc) = runOps cfg rest (applyOp cfg op (s, uidc)) := rfl
    rw [hstep]
    cases op with
    | add e p =>
      rcases hadd : State.add cfg s uidc e p with ⟨s2, uidc2, r⟩
      have h2 := State.add_entries_length_le cfg s uidc e p h
      rw [hadd] at h2
      have happ : applyOp cfg (.add e p) (s, uidc) = (s2, uidc2) := by
        simp [applyOp, hadd]
      rw [happ]
      exact ih s2 uidc2 h2
    | remove uid =>
      have happ : applyOp cfg (.remove uid) (s, uidc) = ((s.remove uid).1, uidc) := rfl
      rw [happ]
      exact ih _ uidc (le_trans (State.remove_entries_length_le s uid) h)
    | update uid new =>
      have happ : applyOp cfg (.update uid new) (s, uidc) = ((s.update uid new).1, uidc) := rfl
      rw [happ]
      refine ih _ uidc ?_
      rw [State.update_entries_length]
      exact h

lemma State.add_result_shape (cfg : Config) (s : State) (uidc : Nat) (e : Entry)
    (p : ScrollPosition) :
    (∃ s2, State.add cfg s uidc e p = (s2, uidc, none))
    ∨ (∃ s2, State.add cfg s uidc e p = (s2, uidc + 1, some (uidc + 1))) := by
  simp only [State.add, gen_uid]
  split_ifs
  all_goals first
    | exact Or.inl ⟨_, rfl⟩
    | exact Or.inr ⟨_, rfl⟩

lemma runOpsUids_sorted (cfg : Config) :
    ∀ (ops : List Op) (s : State) (uidc : Nat),
      (∀ u ∈ runOpsUids cfg ops s uidc, uidc < u)
      ∧ (runOpsUids cfg ops s uidc).Pairwise (· < ·) := by
  intro ops
  induction ops with
  | nil => intro s uidc; simp [runOpsUids]
  | cons op rest ih =>
    intro s uidc
    cases op with
    | add e p =>
      rcases State.add_result_shape cfg s uidc e p with ⟨s2, h⟩ | ⟨s2, h⟩
      · rw [runOpsUids, h]
        exact ih s2 uidc
      · rw [runOpsUids, h]
        obtain ⟨ih1, ih2⟩ := ih s2 (uidc + 1)
        refine ⟨?_, ?_⟩
        · intro u hu
          rcases List.mem_cons.mp hu with rfl | hu
          · omega
          · have := ih1 u hu; omega
        · refine List.pairwise_cons.mpr ⟨?_, ih2⟩
          intro b hb
          exact ih1 b hb
    | remove uid =>
      rw [runOpsUids]
      exact ih _ uidc
    | update uid new =>
      rw [runOpsUids]
      exact ih _ uidc

/-- C4: position resolution.  `eval(Absolute(i), cursor) = min(i, cursor)`;
`eval(Relative(o), cursor) = min(s, cursor)` where `s` is `cursor + o`
saturating at 0 for very negative offsets (for any cursor representable as
a u32); the resolved index never exceeds the cursor; and
`eval(Relative(-5), 2) = 0`. -/
theorem claim_C4 :
    (∀ (i cursor : Nat), ScrollPosition.eval (.absolute i) cursor = min i cursor)
    ∧ (∀ (o : Int) (cursor : Nat), cursor ≤ U32_MAX →
        ScrollPosition.eval (.relative o) cursor
          = min (Int.toNat (Int.ofNat cursor + o)) cursor)
    ∧ (∀ (p : ScrollPosition) (cursor : Nat), ScrollPosition.eval p cursor ≤ cursor)
    ∧ ScrollPosition.eval (.relative (-5)) 2 = 0 := by
  refine ⟨?_, ?_, ?_, by decide⟩
  · intro i cursor
    rfl
  · intro o cursor h
    simp only [ScrollPosition.eval, saturating_add_signed, U32_MAX] at *
    simp only [min_def, Nat.min_def]
    split_ifs <;> omega
  · intro p cursor
    cases p <;> simp [ScrollPosition.eval]

/-- C4 witness: the relative part applied at cursor 2, offset -5. -/
theorem claim_C4_witness :
    ScrollPosition.eval (.relative (-5)) 2 = min (Int.toNat (Int.ofNat 2 + (-5))) 2 :=
  claim_C4.2.1 (-5) 2 (by decide)

/-- C7: formatting the single entry `[Text("hello world")]` at width 6
yields one line `[Text("hello ")]` in truncate mode, and the two lines
`[Text("hello ")]`, `[Text("world")]` in both hard-wrap and word-wrap
modes. -/
theorem claim_C7 :
    (State.format ⟨false, false, 100⟩ ⟨0, [(1, ⟨[Chunk.text "hello world".data]⟩)], [], 0⟩
        6).formatted_cache = [⟨[Chunk.text "hello ".data]⟩]
    ∧ (State.format ⟨true, false, 100⟩ ⟨0, [(1, ⟨[Chunk.text "hello world".data]⟩)], [], 0⟩
        6).formatted_cache = [⟨[Chunk.text "hello ".data]⟩, ⟨[Chunk.text "world".data]⟩]
    ∧ (State.format ⟨true, true, 100⟩ ⟨0, [(1, ⟨[Chunk.text "hello world".data]⟩)], [], 0⟩
        6).formatted_cache = [⟨[Chunk.text "hello ".data]⟩, ⟨[Chunk.text "world".data]⟩] := by
  refine ⟨by decide, by decide, by decide⟩

/-- C3: when the resolved index falls strictly below `skip`, `add` stores
nothing, returns no uid (and no fresh uid is generated), leaves the entries
unchanged and increments `skip` by exactly one; the request processor
reports this to the caller as `NotFound`. -/
theorem claim_C3 :
    ∀ (cfg : Config) (s : State) (uidc : Nat) (e : Entry) (p : ScrollPosition),
      p.eval (s.entries.length + s.skip) < s.skip →
      State.add cfg s uidc e p = ({ s with skip := s.skip + 1 }, uidc, none)
      ∧ ∀ id, (drainGo cfg 1 [.addEntry id p e] ⟨s, uidc, [], false⟩).res
          = [⟨.notFound, id⟩] := by
  intro cfg s uidc e p h
  have hmin : min (p.eval (s.entries.length + s.skip)) (s.skip + s.entries.length + 1)
      < s.skip := lt_of_le_of_lt (Nat.min_le_left _ _) h
  have hadd : State.add cfg s uidc e p = ({ s with skip := s.skip + 1 }, uidc, none) := by
    simp only [State.add]
    rw [if_pos hmin]
  refine ⟨hadd, ?_⟩
  intro id
  simp [drainGo, hadd]

/-- C3 witness: an absolute position below a nonzero skip on an empty
retained window. -/
theorem claim_C3_witness :
    State.add ⟨true, false, 100⟩ ⟨2, [], [], 0⟩ 5 ⟨[]⟩ (.absolute 0)
      = (⟨3, [], [], 0⟩, 5, none) :=
  (claim_C3 ⟨true, false, 100⟩ ⟨2, [], [], 0⟩ 5 ⟨[]⟩ (.absolute 0) (by decide)).1

/-- C10: with the buffer already holding exactly MAX_ENTRIES records, an
`add` that resolves to local position 0 still returns the fresh uid, but
the record just inserted is itself the one evicted: the entries are
unchanged (so they do not contain the returned uid, which is fresh) and
`skip` grows by one. -/
theorem claim_C10 :
    ∀ (cfg : Config) (s : State) (uidc : Nat) (e : Entry) (p : ScrollPosition),
      s.entries.length = cfg.max_entries →
      min (p.eval (s.entries.length + s.skip)) (s.skip + s.entries.length + 1) = s.skip →
      (∀ q ∈ s.entries, q.1 ≤ uidc) →
      State.add cfg s uidc e p
          = ({ s with skip := s.skip + 1 }, gen_uid uidc, some (gen_uid uidc))
      ∧ gen_uid uidc ∉ (State.add cfg s uidc e p).1.entries.map Prod.fst := by
  intro cfg s uidc e p hlen hmin hbound
  have hadd : State.add cfg s uidc e p
      = ({ s with skip := s.skip + 1 }, gen_uid uidc, some (gen_uid uidc)) := by
    simp only [State.add, hmin]
    rw [if_neg (Nat.lt_irrefl s.skip)]
    have hsub : s.skip - s.skip = 0 := Nat.sub_self s.skip
    rw [hsub]
    rw [if_neg (Nat.not_lt_zero s.entries.length)]
    have hins : insertAt 0 (gen_uid uidc, e) s.entries = (gen_uid uidc, e) :: s.entries := by
      simp [insertAt]
    rw [hins]
    rw [if_pos (by simp [hlen])]
    rfl
  refine ⟨hadd, ?_⟩
  rw [hadd]
  simp only [List.mem_map]
  rintro ⟨q, hq, hq1⟩
  have := hbound q hq
  simp only [gen_uid] at hq1
  omega

/-- C10 witness: a one-slot buffer receiving a front insertion. -/
theorem claim_C10_witness :
    State.add ⟨true, false, 1⟩ ⟨0, [(1, ⟨[]⟩)], [], 0⟩ 1 ⟨[]⟩ (.absolute 0)
      = (⟨1, [(1, ⟨[]⟩)], [], 0⟩, 2, some 2)
    ∧ 2 ∉ (State.add ⟨true, false, 1⟩ ⟨0, [(1, ⟨[]⟩)], [], 0⟩ 1 ⟨[]⟩
        (.absolute 0)).1.entries.map Prod.fst :=
  claim_C10 ⟨true, false, 1⟩ ⟨0, [(1, ⟨[]⟩)], [], 0⟩ 1 ⟨[]⟩ (.absolute 0)
    (by decide) (by decide) (by decide)

/-- C9: over any operation sequence of one process lifetime (buffer and uid
counter starting empty), the uids returned by the successful `add` calls
are strictly increasing in call order and never repeat. -/
theorem claim_C9 :
    ∀ (cfg : Config) (ops : List Op),
      (runOpsUids cfg ops State.initial 0).Pairwise (· < ·)
      ∧ (runOpsUids cfg ops State.initial 0).Nodup := by
  intro cfg ops
  have h := (runOpsUids_sorted cfg ops State.initial 0).2
  exact ⟨h, h.imp Nat.ne_of_lt⟩

/-- C6: a Multiple request is acknowledged with Recieved (correlated to its
own id) immediately, and its children are spliced onto the back of the
queue, before any of them is processed; when several responses accumulate,
exactly one message is sent, a Multiple envelope of all response variants
in accumulation order under the first accumulated response's id.  For a
Multiple of two successful adds the envelope carries Recieved, Created,
Created under the Recieved acknowledgement's id. -/
theorem claim_C6 :
    (∀ (cfg : Config) (fuel id : Nat) (requests queue : List ScrollRequest)
        (rs : RoundState),
      drainGo cfg (fuel + 1) (.multiple id requests :: queue) rs
        = drainGo cfg fuel (queue ++ requests)
            ⟨rs.state, rs.uidc, rs.res ++ [⟨.recieved, id⟩], rs.updated⟩)
    ∧ (∀ (r1 r2 : ScrollResponse) (rest : List ScrollResponse),
        shapeResponses (r1 :: r2 :: rest)
          = [.send ⟨.multiple (r1.content :: r2.content :: rest.map ScrollResponse.content),
              r1.id⟩])
    ∧ (handleMessage ⟨true, false, 100⟩ 4 State.initial 0
        (.multiple 7 [.addEntry 8 (.relative 0) ⟨[Chunk.text "hi".data]⟩,
          .addEntry 9 (.relative 0) ⟨[Chunk.text "yo".data]⟩])).effects
        = [Effect.formatRender,
            Effect.send ⟨.multiple [.recieved, .created 1, .created 2], 7⟩] := by
  refine ⟨fun cfg fuel id requests queue rs => rfl, fun r1 r2 rest => rfl, ?_⟩
  rfl

/-- C5: with MAX_ENTRIES at least 1, any operation sequence from the empty
buffer keeps `entries.length ≤ MAX_ENTRIES`; whenever a successful
insertion overflows the bound, the record at position 0 of the
post-insertion vector is evicted and `skip` grows by one; and with
MAX_ENTRIES = 2, three adds at the logical end leave exactly the 2nd and
3rd records and `skip = 1`. -/
theorem claim_C5 :
    (∀ (cfg : Config) (ops : List Op), 1 ≤ cfg.max_entries →
      (runOps cfg ops (State.initial, 0)).1.entries.length ≤ cfg.max_entries)
    ∧ (∀ (cfg : Config) (s : State) (uidc : Nat) (e : Entry) (p : ScrollPosition)
        (s2 : State) (uidc2 uid : Nat),
        s.entries.length = cfg.max_entries →
        State.add cfg s uidc e p = (s2, uidc2, some uid) →
        s2.skip = s.skip + 1
        ∧ s2.entries = (insertAt
            (min (p.eval (s.entries.length + s.skip)) (s.skip + s.entries.length + 1)
              - s.skip) (uid, e) s.entries).tail)
    ∧ (runOps ⟨true, false, 2⟩
        [Op.add ⟨[]⟩ (.relative 0), Op.add ⟨[]⟩ (.relative 0), Op.add ⟨[]⟩ (.relative 0)]
        (State.initial, 0)).1
        = ⟨1, [(2, ⟨[]⟩), (3, ⟨[]⟩)], [], 0⟩ := by
  refine ⟨?_, ?_, by decide⟩
  · intro cfg ops _
    exact runOps_entries_bound cfg ops State.initial 0 (Nat.zero_le _)
  · intro cfg s uidc e p s2 uidc2 uid hlen hadd
    have hle : min (p.eval (s.entries.length + s.skip)) (s.skip + s.entries.length + 1)
        ≤ s.entries.length + s.skip :=
      le_trans (Nat.min_le_left _ _) (eval_le_cursor p _)
    simp only [State.add] at hadd
    split_ifs at hadd with h1 h2 h3 h4
    · exact absurd hadd (by simp)
    · exfalso
      omega
    · exfalso
      omega
    · simp only [Prod.mk.injEq, Option.some.injEq] at hadd
      obtain ⟨hs2, _, huid⟩ := hadd
      subst huid
      constructor
      · rw [← hs2]
      · rw [← hs2]
    · exfalso
      rw [length_insertAt] at h4
      omega

/-- C5 witness: the bound invariant applied to the three-add sequence with
MAX_ENTRIES = 2. -/
theorem claim_C5_witness :
    (runOps ⟨true, false, 2⟩
      [Op.add ⟨[]⟩ (.relative 0), Op.add ⟨[]⟩ (.relative 0), Op.add ⟨[]⟩ (.relative 0)]
      (State.initial, 0)).1.entries.length ≤ 2 :=
  claim_C5.1 ⟨true, false, 2⟩
    [Op.add ⟨[]⟩ (.relative 0), Op.add ⟨[]⟩ (.relative 0), Op.add ⟨[]⟩ (.relative 0)]
    (by decide)

/-- C1 counterexample: the claim says WORD wrap also recomputes the skip
with the post-reset running length (i.e. removes a full line width from
the remainder), but the source's `word_wrap` computes the skip BEFORE the
reset: on `[Text("ab cdefghi")]` at width 4 the code keeps every code unit
while the claimed behaviour would drop "def". -/
theorem claim_C1_counterexample :
    Entry.word_wrap ⟨[Chunk.text "ab cdefghi".data]⟩ 4
        ≠ Entry.word_wrap_postreset ⟨[Chunk.text "ab cdefghi".data]⟩ 4
    ∧ Entry.word_wrap ⟨[Chunk.text "ab cdefghi".data]⟩ 4
        = [⟨[Chunk.text "ab ".data, Chunk.text "c".data]⟩, ⟨[Chunk.text "defg".data]⟩,
            ⟨[Chunk.text "hi".data]⟩]
    ∧ Entry.word_wrap_postreset ⟨[Chunk.text "ab cdefghi".data]⟩ 4
        = [⟨[Chunk.text "ab ".data, Chunk.text "c".data]⟩, ⟨[Chunk.text "ghi".data]⟩] := by
  refine ⟨by decide, by decide, by decide⟩

/-- C1 as amended: in hard wrap (`plain_wrap`) a mid-chunk split removes
`length - running_length` code units from the remainder with the running
length already reset to 0, i.e. a full line width; in word wrap
(`word_wrap`) the skip is computed before the reset, so it removes the
width minus the pre-reset running length — exactly the code units consumed
from the chunk.  On `[Text("ab"), Text("cdefgh")]` at width 4, hard wrap
therefore drops "ef". -/
theorem claim_C1_amended :
    (∀ (length fuel running_length : Nat) (v : List Char) (rest : List Chunk)
        (previous_colour : Option Chunk) (cur : List Chunk) (acc : List Entry),
      running_length + v.length > length →
      plainWrapGo length (fuel + 1) (.text v :: rest) running_length previous_colour cur acc
        = plainWrapGo length fuel (.text (v.drop length) :: rest) 0 previous_colour
            (startLine previous_colour)
            (acc ++ [⟨cur ++ [.text (v.take (length - running_length))]⟩]))
    ∧ (∀ (length fuel running_length : Nat) (v : List Char) (rest : List Chunk)
        (previous_colour : Option Chunk) (cur : List Chunk) (acc : List Entry),
      running_length + v.length > length → v.length > length →
      wordWrapGo length (fuel + 1) (.text v :: rest) running_length previous_colour cur acc
        = wordWrapGo length fuel (.text (v.drop (length - running_length)) :: rest) 0
            previous_colour (startLine previous_colour)
            (acc ++ [⟨cur ++ [.text (v.take (length - running_length))]⟩]))
    ∧ Entry.plain_wrap ⟨[Chunk.text "ab".data, Chunk.text "cdefgh".data]⟩ 4
        = [⟨[Chunk.text "ab".data, Chunk.text "cd".data]⟩, ⟨[Chunk.text "gh".data]⟩] := by
  refine ⟨?_, ?_, by decide⟩
  · intro length fuel running_length v rest previous_colour cur acc h
    simp [plainWrapGo, Chunk.isColour, Chunk.len, Chunk.truncate, Chunk.skip, h]
  · intro length fuel running_length v rest previous_colour cur acc h h2
    simp [wordWrapGo, Chunk.isColour, Chunk.len, Chunk.truncate, Chunk.skip, h, h2]

/-- C1 witness: both amended split equations at concrete overflowing states
with nonzero pre-reset running length. -/
theorem claim_C1_witness :
    plainWrapGo 4 4 [Chunk.text "cdefgh".data] 2 none [Chunk.text "ab".data] []
        = plainWrapGo 4 3 [Chunk.text ("cdefgh".data.drop 4)] 0 none (startLine none)
            ([] ++ [⟨[Chunk.text "ab".data] ++ [Chunk.text ("cdefgh".data.take 2)]⟩])
    ∧ wordWrapGo 4 4 [Chunk.text "cdefghi".data] 3 none [Chunk.text "ab ".data] []
        = wordWrapGo 4 3 [Chunk.text ("cdefghi".data.drop 1)] 0 none (startLine none)
            ([] ++ [⟨[Chunk.text "ab ".data] ++ [Chunk.text ("cdefghi".data.take 1)]⟩]) :=
  ⟨claim_C1_amended.1 4 3 2 "cdefgh".data [] none [Chunk.text "ab".data] [] (by decide),
    claim_C1_amended.2.1 4 3 3 "cdefghi".data [] none [Chunk.text "ab ".data] []
      (by decide) (by decide)⟩

lemma shapeResponses_no_formatRender (res : List ScrollResponse) :
    (shapeResponses res).countP Effect.isFormatRender = 0 := by
  match res with
  | [] => rfl
  | [r] => rfl
  | r1 :: r2 :: rest => rfl

lemma drainGo_res_updated (cfg : Config) :
    ∀ (fuel : Nat) (queue : List ScrollRequest) (rs : RoundState), ∃ newRes,
      (drainGo cfg fuel queue rs).res = rs.res ++ newRes
      ∧ (drainGo cfg fuel queue rs).updated
          = (rs.updated || newRes.any (fun r => isSuccessResponse r.content)) := by
  intro fuel
  induction fuel with
  | zero =>
    intro queue rs
    cases queue <;> exact ⟨[], by simp [drainGo]⟩
  | succ n ih =>
    intro queue rs
    cases queue with
    | nil => exact ⟨[], by simp [drainGo]⟩
    | cons req rest =>
      cases req with
      | addEntry id position entry =>
        rcases hadd : State.add cfg rs.state rs.uidc entry position with ⟨s2, uidc2, r⟩
        cases r with
        | some uid =>
          obtain ⟨nr, h1, h2⟩ := ih rest ⟨s2, uidc2, rs.res ++ [⟨.created uid, id⟩], true⟩
          refine ⟨⟨.created uid, id⟩ :: nr, ?_, ?_⟩
          · simp only [drainGo, hadd]
            simpa using h1
          · simp only [drainGo, hadd]
            simp [h2, isSuccessResponse]
        | none =>
          obtain ⟨nr, h1, h2⟩ := ih rest ⟨s2, uidc2, rs.res ++ [⟨.notFound, id⟩], rs.updated⟩
          refine ⟨⟨.notFound, id⟩ :: nr, ?_, ?_⟩
          · simp only [drainGo, hadd]
            simpa using h1
          · simp only [drainGo, hadd]
            simp [h2, isSuccessResponse]
      | removeEntry id uid =>
        rcases hrem : State.remove rs.state uid with ⟨s2, b⟩
        cases b with
        | true =>
          obtain ⟨nr, h1, h2⟩ := ih rest ⟨s2, rs.uidc, rs.res ++ [⟨.removed, id⟩], true⟩
          refine ⟨⟨.removed, id⟩ :: nr, ?_, ?_⟩
          · simp only [drainGo, hrem]
            simpa using h1
          · simp only [drainGo, hrem]
            simp [h2, isSuccessResponse]
        | false =>
          obtain ⟨nr, h1, h2⟩ := ih rest ⟨s2, rs.uidc, rs.res ++ [⟨.notFound, id⟩], rs.updated⟩
          refine ⟨⟨.notFound, id⟩ :: nr, ?_, ?_⟩
          · simp only [drainGo, hrem]
            simpa using h1
          · simp only [drainGo, hrem]
            simp [h2, isSuccessResponse]
      | updateEntry id uid new =>
        rcases hupd : State.update rs.state uid new with ⟨s2, b⟩
        cases b with
        | true =>
          obtain ⟨nr, h1, h2⟩ := ih rest ⟨s2, rs.uidc, rs.res ++ [⟨.updated, id⟩], true⟩
          refine ⟨⟨.updated, id⟩ :: nr, ?_, ?_⟩
          · simp only [drainGo, hupd]
            simpa using h1
          · simp only [drainGo, hupd]
            simp [h2, isSuccessResponse]
        | false =>
          obtain ⟨nr, h1, h2⟩ := ih rest ⟨s2, rs.uidc, rs.res ++ [⟨.notFound, id⟩], rs.updated⟩
          refine ⟨⟨.notFound, id⟩ :: nr, ?_, ?_⟩
          · simp only [drainGo, hupd]
            simpa using h1
          · simp only [drainGo, hupd]
            simp [h2, isSuccessResponse]
      | multiple id requests =>
        obtain ⟨nr, h1, h2⟩ := ih (rest ++ requests)
          ⟨rs.state, rs.uidc, rs.res ++ [⟨.recieved, id⟩], rs.updated⟩
        refine ⟨⟨.recieved, id⟩ :: nr, ?_, ?_⟩
        · simp only [drainGo]
          simpa using h1
        · simp only [drainGo]
          simp [h2, isSuccessResponse]

lemma any_map_content (l : List ScrollResponse) :
    (l.map ScrollResponse.content).any isSuccessResponse
      = l.any (fun r => isSuccessResponse r.content) := by
  induction l with
  | nil => rfl
  | cons r rest ih => simp [ih]

/-- C8: for every inbound request, the format-and-re-render effect appears
exactly once in the round's effect trace when at least one mutation
succeeded (some accumulated response is Created, Removed or Updated), and
not at all otherwise — never once per sub-request. -/
theorem claim_C8 :
    ∀ (cfg : Config) (width : Nat) (s : State) (uidc : Nat) (req : ScrollRequest),
      (handleMessage cfg width s uidc req).effects.countP Effect.isFormatRender
        = if ((processRound cfg s uidc req).res.map ScrollResponse.content).any
            isSuccessResponse then 1 else 0 := by
  intro cfg width s uidc req
  obtain ⟨nr, h1, h2⟩ := drainGo_res_updated cfg (reqFuel req) [req] ⟨s, uidc, [], false⟩
  have hres : (processRound cfg s uidc req).res = nr := by
    simpa [processRound] using h1
  have hupd : (processRound cfg s uidc req).updated
      = nr.any (fun r => isSuccessResponse r.content) := by
    simpa [processRound] using h2
  have hany : ((processRound cfg s uidc req).res.map ScrollResponse.content).any
      isSuccessResponse = nr.any (fun r => isSuccessResponse r.content) := by
    rw [hres, any_map_content]
  rw [handleMessage]
  by_cases hu : (processRound cfg s uidc req).updated
  · rw [if_pos hu]
    simp only [List.countP_cons, Effect.isFormatRender, shapeResponses_no_formatRender,
      hany, if_pos rfl]
    rw [← hupd, hu]
    simp
  · rw [if_neg hu]
    simp only [shapeResponses_no_formatRender, hany]
    rw [← hupd]
    simp only [Bool.not_eq_true] at hu
    rw [hu]
    simp

lemma updColour_text (i : Option Chunk) (v : List Char) : updColour i (.text v) = i := by
  simp [updColour, Chunk.isColour]

lemma lastColourFrom_cons (i : Option Chunk) (a : Chunk) (l : List Chunk) :
    lastColourFrom i (a :: l) = lastColourFrom (updColour i a) l := rfl

lemma lastColourFrom_isColour :
    ∀ (l : List Chunk) (i : Option Chunk),
      (∀ c0, i = some c0 → c0.isColour = true) →
      ∀ c, lastColourFrom i l = some c → c.isColour = true := by
  intro l
  induction l with
  | nil =>
    intro i hi c h
    exact hi c h
  | cons a rest ih =>
    intro i hi c h
    rw [lastColourFrom_cons] at h
    refine ih (updColour i a) ?_ c h
    intro c0 hc0
    rw [updColour] at hc0
    split at hc0
    · cases hc0
      assumption
    · exact hi c0 hc0

lemma lastColourFrom_startLine (i : Option Chunk)
    (h : ∀ c, i = some c → c.isColour = true) :
    lastColourFrom i (startLine i) = i := by
  cases i with
  | none => rfl
  | some pc =>
    simp [startLine, lastColourFrom, updColour, h pc rfl]

lemma lastColour_lines_snoc_chunk (acc : List Entry) (cur : List Chunk) (c : Chunk) :
    lastColourFrom none (flattenLines (acc ++ [⟨cur ++ [c]⟩]))
      = updColour (lastColourFrom none (flattenLines (acc ++ [⟨cur⟩]))) c := by
  simp [flattenLines, lastColourFrom, List.foldl_append]

lemma lastColour_lines_new_line (L : List Entry) (nl : List Chunk) :
    lastColourFrom none (flattenLines (L ++ [⟨nl⟩]))
      = lastColourFrom (lastColourFrom none (flattenLines L)) nl := by
  simp [flattenLines, lastColourFrom, List.foldl_append]

lemma colourPersists_singleton (cur : List Chunk) : ColourPersists [⟨cur⟩] := by
  intro j line hj hget c hlast
  rcases j with _ | j
  · omega
  · simp [List.get?] at hget

lemma colourPersists_snoc_last (acc : List Entry) (cur extra : List Chunk)
    (h : ColourPersists (acc ++ [⟨cur⟩])) :
    ColourPersists (acc ++ [⟨cur ++ extra⟩]) := by
  intro j line hj hget c hlast
  have hjlen : j < acc.length + 1 := by
    have := (List.get?_eq_some.mp hget).1
    simpa using this
  by_cases hcase : j < acc.length
  · rw [List.get?_append hcase] at hget
    have htake : (acc ++ [Entry.mk (cur ++ extra)]).take j = (acc ++ [Entry.mk cur]).take j := by
      rw [List.take_append_of_le_length (le_of_lt hcase),
        List.take_append_of_le_length (le_of_lt hcase)]
    rw [htake] at hlast
    exact h j line hj (by rw [List.get?_append hcase]; exact hget) c hlast
  · have hj' : j = acc.length := by omega
    subst hj'
    rw [List.get?_concat_length] at hget
    cases hget
    rw [List.take_left] at hlast
    have hold := h acc.length ⟨cur⟩ hj (List.get?_concat_length acc ⟨cur⟩) c
      (by rw [List.take_left]; exact hlast)
    simp only at hold
    cases cur with
    | nil => simp at hold
    | cons a as => simpa using hold

lemma colourPersists_new_line (L : List Entry) (nl : Entry)
    (hL : ColourPersists L)
    (hnew : ∀ c, lastColourFrom none (flattenLines L) = some c → nl.chunks.head? = some c) :
    ColourPersists (L ++ [nl]) := by
  intro j line hj hget c hlast
  have hjlen : j < L.length + 1 := by
    have := (List.get?_eq_some.mp hget).1
    simpa using this
  by_cases hcase : j < L.length
  · rw [List.get?_append hcase] at hget
    rw [List.take_append_of_le_length (le_of_lt hcase)] at hlast
    exact hL j line hj hget c hlast
  · have hj' : j = L.length := by omega
    subst hj'
    rw [List.get?_concat_length] at hget
    cases hget
    rw [List.take_left] at hlast
    exact hnew c hlast

lemma plainWrapGo_step_overflow (w fuel running : Nat) (v : List Char) (rest : List Chunk)
    (prevC : Option Chunk) (cur : List Chunk) (acc : List Entry)
    (h : running + v.length > w) :
    plainWrapGo w (fuel + 1) (.text v :: rest) running prevC cur acc
      = plainWrapGo w fuel (.text (v.drop w) :: rest) 0 prevC (startLine prevC)
          (acc ++ [⟨cur ++ [.text (v.take (w - running))]⟩]) := by
  simp [plainWrapGo, Chunk.isColour, Chunk.len, Chunk.truncate, Chunk.skip, h]

lemma plainWrapGo_step_fit (w fuel running : Nat) (c : Chunk) (rest : List Chunk)
    (prevC : Option Chunk) (cur : List Chunk) (acc : List Entry)
    (h : ¬ running + c.len > w) :
    plainWrapGo w (fuel + 1) (c :: rest) running prevC cur acc
      = plainWrapGo w fuel rest (running + c.len) (updColour prevC c) (cur ++ [c]) acc := by
  simp only [plainWrapGo, updColour]
  rw [if_neg h]

lemma wordWrapGo_step_overflow_long (w fuel running : Nat) (v : List Char)
    (rest : List Chunk) (prevC : Option Chunk) (cur : List Chunk) (acc : List Entry)
    (h : running + v.length > w) (h2 : v.length > w) :
    wordWrapGo w (fuel + 1) (.text v :: rest) running prevC cur acc
      = wordWrapGo w fuel (.text (v.drop (w - running)) :: rest) 0 prevC (startLine prevC)
          (acc ++ [⟨cur ++ [.text (v.take (w - running))]⟩]) := by
  simp [wordWrapGo, Chunk.isColour, Chunk.len, Chunk.truncate, Chunk.skip, h, h2]

lemma wordWrapGo_step_overflow_short (w fuel running : Nat) (v : List Char)
    (rest : List Chunk) (prevC : Option Chunk) (cur : List Chunk) (acc : List Entry)
    (h : running + v.length > w) (h2 : ¬ v.length > w) :
    wordWrapGo w (fuel + 1) (.text v :: rest) running prevC cur acc
      = wordWrapGo w fuel (.text v :: rest) 0 prevC (startLine prevC) (acc ++ [⟨cur⟩]) := by
  simp [wordWrapGo, Chunk.isColour, Chunk.len, h, h2]

lemma wordWrapGo_step_fit (w fuel running : Nat) (c : Chunk) (rest : List Chunk)
    (prevC : Option Chunk) (cur : List Chunk) (acc : List Entry)
    (h : ¬ running + c.len > w) :
    wordWrapGo w (fuel + 1) (c :: rest) running prevC cur acc
      = wordWrapGo w fuel rest (running + c.len) (updColour prevC c) (cur ++ [c]) acc := by
  simp only [wordWrapGo, updColour]
  rw [if_neg h]

lemma plainWrapGo_persists (w : Nat) :
    ∀ (fuel : Nat) (chunks : List Chunk) (running : Nat) (prevC : Option Chunk)
      (cur : List Chunk) (acc : List Entry),
      running ≤ w →
      lastColourFrom none (flattenLines (acc ++ [⟨cur⟩])) = prevC →
      ColourPersists (acc ++ [⟨cur⟩]) →
      ColourPersists (plainWrapGo w fuel chunks running prevC cur acc) := by
  intro fuel
  induction fuel with
  | zero =>
    intro chunks running prevC cur acc hrun hA hP
    cases chunks with
    | nil => simpa [plainWrapGo] using hP
    | cons c rest => simpa [plainWrapGo] using hP
  | succ n ih =>
    intro chunks running prevC cur acc hrun hA hP
    cases chunks with
    | nil => simpa [plainWrapGo] using hP
    | cons c rest =>
      have hcol : ∀ c0, prevC = some c0 → c0.isColour = true := by
        intro c0 h0
        exact lastColourFrom_isColour _ none (by intro c1 h1; cases h1) c0 (hA.trans h0)
      by_cases hov : running + c.len > w
      · cases c with
        | colour v =>
          exfalso
          simp [Chunk.len] at hov
          omega
        | text v =>
          rw [plainWrapGo_step_overflow w n running v rest prevC cur acc hov]
          have hinner : lastColourFrom none
              (flattenLines (acc ++ [⟨cur ++ [Chunk.text (v.take (w - running))]⟩])) = prevC := by
            rw [lastColour_lines_snoc_chunk, updColour_text, hA]
          apply ih
          · exact Nat.zero_le w
          · rw [lastColour_lines_new_line]
            rw [hinner]
            exact lastColourFrom_startLine prevC hcol
          · refine colourPersists_new_line _ _ (colourPersists_snoc_last acc cur _ hP) ?_
            intro c0 h0
            rw [hinner] at h0
            subst h0
            rfl
      · rw [plainWrapGo_step_fit w n running c rest prevC cur acc hov]
        apply ih
        · simp [Chunk.len] at hov ⊢
          omega
        · rw [lastColour_lines_snoc_chunk, hA]
        · exact colourPersists_snoc_last acc cur [c] hP

lemma wordWrapGo_persists (w : Nat) :
    ∀ (fuel : Nat) (chunks : List Chunk) (running : Nat) (prevC : Option Chunk)
      (cur : List Chunk) (acc : List Entry),
      running ≤ w →
      lastColourFrom none (flattenLines (acc ++ [⟨cur⟩])) = prevC →
      ColourPersists (acc ++ [⟨cur⟩]) →
      ColourPersists (wordWrapGo w fuel chunks running prevC cur acc) := by
  intro fuel
  induction fuel with
  | zero =>
    intro chunks running prevC cur acc hrun hA hP
    cases chunks with
    | nil => simpa [wordWrapGo] using hP
    | cons c rest => simpa [wordWrapGo] using hP
  | succ n ih =>
    intro chunks running prevC cur acc hrun hA hP
    cases chunks with
    | nil => simpa [wordWrapGo] using hP
    | cons c rest =>
      have hcol : ∀ c0, prevC = some c0 → c0.isColour = true := by
        intro c0 h0
        exact lastColourFrom_isColour _ none (by intro c1 h1; cases h1) c0 (hA.trans h0)
      by_cases hov : running + c.len > w
      · cases c with
        | colour v =>
          exfalso
          simp [Chunk.len] at hov
          omega
        | text v =>
          by_cases hlong : v.length > w
          · rw [wordWrapGo_step_overflow_long w n running v rest prevC cur acc hov hlong]
            have hinner : lastColourFrom none
                (flattenLines (acc ++ [⟨cur ++ [Chunk.text (v.take (w - running))]⟩]))
                  = prevC := by
              rw [lastColour_lines_snoc_chunk, updColour_text, hA]
            apply ih
            · exact Nat.zero_le w
            · rw [lastColour_lines_new_line]
              rw [hinner]
              exact lastColourFrom_startLine prevC hcol
            · refine colourPersists_new_line _ _ (colourPersists_snoc_last acc cur _ hP) ?_
              intro c0 h0
              rw [hinner] at h0
              subst h0
              rfl
          · rw [wordWrapGo_step_overflow_short w n running v rest prevC cur acc hov hlong]
            apply ih
            · exact Nat.zero_le w
            · rw [lastColour_lines_new_line]
              rw [hA]
              exact lastColourFrom_startLine prevC hcol
            · refine colourPersists_new_line _ _ hP ?_
              intro c0 h0
              rw [hA] at h0
              subst h0
              rfl
      · rw [wordWrapGo_step_fit w n running c rest prevC cur acc hov]
        apply ih
        · simp [Chunk.len] at hov ⊢
          omega
        · rw [lastColour_lines_snoc_chunk, hA]
        · exact colourPersists_snoc_last acc cur [c] hP

/-- C2: in both hard wrap and word wrap, every output line after the first
begins with the most recently encountered colour chunk when one has been
encountered before the wrap break that started it (stated through the
emitted chunks: the chunks emitted before line j are those of lines 0..j-1,
whose last colour chunk is exactly the tracked "previous colour" at the
break), so active styling persists across every wrap boundary. -/
theorem claim_C2 :
    ∀ (e : Entry) (w : Nat),
      ColourPersists (e.plain_wrap w) ∧ ColourPersists (e.word_wrap w) := by
  intro e w
  constructor
  · exact plainWrapGo_persists w (wrapFuel e.chunks) e.chunks 0 none [] []
      (Nat.zero_le w) rfl (colourPersists_singleton [])
  · exact wordWrapGo_persists w (wrapFuel e.split_words.chunks) e.split_words.chunks 0 none [] []
      (Nat.zero_le w) rfl (colourPersists_singleton [])

/-- C2 witness: the persistence property applied to a concrete wrapped
entry whose second line must re-emit the colour. -/
theorem claim_C2_witness :
    (Entry.mk [Chunk.colour 1, Chunk.text "abcd".data]).plain_wrap 2
        = [⟨[Chunk.colour 1, Chunk.text "ab".data]⟩, ⟨[Chunk.colour 1, Chunk.text "cd".data]⟩]
    ∧ (Entry.mk [Chunk.colour 1, Chunk.text "cd".data]).chunks.head? = some (Chunk.colour 1) := by
  refine ⟨by decide, ?_⟩
  exact (claim_C2 ⟨[Chunk.colour 1, Chunk.text "abcd".data]⟩ 2).1 1
    ⟨[Chunk.colour 1, Chunk.text "cd".data]⟩ (by decide) (by decide) (Chunk.colour 1) (by decide)
